import Mathlib

/-!
Verification of the row-collection state machine and persistence layer of
the contacts-table application (`src/index.js`).

The embedding follows the source:
* `Record`, `blankRecord` — the row shape `{name, mobile}` and the blank row.
* `handleChange`, `handleAddRow`, `handleRemoveLast`, `handleRemoveAt`,
  `handleInsertAt` — the five mutation handlers of `App`, written over
  `List Record` exactly as the JavaScript array operations behave
  (`map` with index, spread-append, `slice(0,-1)`, `filter` on index,
  `splice(index+1, 0, blank)` with its clamping rules).
* `computeFilteredView` — the derived `filtered` value: records paired with
  their original index, kept when the lowercased query occurs in the
  lowercased `name` or `mobile` (every record when the query is empty).
* `JsonValue`, `printV`, `parseValue`, `jsonStringify`, `jsonParse` — a model
  of the JSON values `JSON.stringify`/`JSON.parse` exchange with the durable
  slot (numbers are modelled as integers; the application itself only stores
  strings inside arrays of objects).
* `Storage`, `load`, `save` — the `useLocalStorage` hook's read and write
  paths, with `available = false` standing for a storage mechanism that
  throws (disabled storage, quota, security restrictions).
* `applyEvent`, `processEvent`, `mountApp` — the reactive wiring: each
  mutation handler runs inside one event-loop turn; the `useEffect` with
  dependencies `[key, state]` re-runs (and writes the slot) exactly when the
  updater returned a freshly allocated array, because React skips re-render
  and effects when an updater returns the previous state reference.
-/

/-- A row of the table: `{ name: string, mobile: string }`. -/
structure Record where
  name : String
  mobile : String
deriving DecidableEq, Repr

/-- The blank record `{name:"", mobile:""}` used as fallback and for new rows. -/
def blankRecord : Record := { name := "", mobile := "" }

/-- The two editable fields of a record (`field` in `handleChange`). -/
inductive RecField where
  | name
  | mobile
deriving DecidableEq, Repr

/-- `{...r, [field]: value}` — the record with one field replaced. -/
def setField (r : Record) : RecField → String → Record
  | .name, v => { r with name := v }
  | .mobile, v => { r with mobile := v }

/-- JavaScript `Array.prototype.map` with the element index, starting at `k`. -/
def mapIdxFrom {α : Type} (k : Nat) (f : Nat → α → α) : List α → List α
  | [] => []
  | x :: xs => f k x :: mapIdxFrom (k + 1) f xs

/-- `handleChange(index, field)` applied to `value`:
`prev.map((r, i) => i === index ? { ...r, [field]: value } : r)`. -/
def handleChange (rows : List Record) (index : Nat) (field : RecField)
    (value : String) : List Record :=
  mapIdxFrom 0 (fun i r => if i = index then setField r field value else r) rows

/-- `handleAddRow`: `[...prev, { name: "", mobile: "" }]`. -/
def handleAddRow (rows : List Record) : List Record :=
  rows ++ [blankRecord]

/-- `handleRemoveLast`: `prev.length > 1 ? prev.slice(0, -1) : prev`. -/
def handleRemoveLast (rows : List Record) : List Record :=
  if rows.length > 1 then rows.dropLast else rows

/-- JavaScript `prev.filter((_, i) => i !== index)`: keep every element whose
position differs from `index`. -/
def filterIdxNe (rows : List Record) (index : Nat) : List Record :=
  (rows.enum.filter (fun p => p.1 ≠ index)).map (fun p => p.2)

/-- `handleRemoveAt(index)`: filter the row out; if that empties the
collection, substitute the single-blank-record fallback. -/
def handleRemoveAt (rows : List Record) (index : Nat) : List Record :=
  let next := filterIdxNe rows index
  if 0 < next.length then next else [blankRecord]

/-- The start position `Array.prototype.splice` actually uses: a negative
start counts from the end (clamped at 0), a start beyond the length is
clamped to the length. -/
def spliceStart (len : Nat) (start : Int) : Nat :=
  if start < 0 then ((len : Int) + start).toNat else min start.toNat len

/-- `handleInsertAt(index)`: `next = [...prev]; next.splice(index + 1, 0,
{name:"", mobile:""})` — insert the blank record at splice position
`index + 1`. -/
def handleInsertAt (rows : List Record) (index : Int) : List Record :=
  let s := spliceStart rows.length (index + 1)
  rows.take s ++ blankRecord :: rows.drop s

/-- `matchesAt pat text`: `pat` is an initial run of `text`. -/
def matchesAt : List Char → List Char → Bool
  | [], _ => true
  | _ :: _, [] => false
  | p :: ps, c :: cs => p = c && matchesAt ps cs

/-- `containsSub pat text`: `pat` occurs contiguously somewhere in `text`
(the semantics of JavaScript `text.includes(pat)`). -/
def containsSub (pat : List Char) : List Char → Bool
  | [] => pat.isEmpty
  | c :: cs => matchesAt pat (c :: cs) || containsSub pat cs

/-- JavaScript `s.includes(q)`. -/
def jsIncludes (s q : String) : Bool := containsSub q.toList s.toList

/-- The filter predicate of the derived `filtered` view:
`if (!filter) return true;` then case-insensitive inclusion of the query in
`name` or `mobile`. -/
def rowMatches (filter : String) (r : Record) : Bool :=
  if filter = "" then true
  else
    jsIncludes r.name.toLower filter.toLower
      || jsIncludes r.mobile.toLower filter.toLower

/-- The derived filtered view: each surviving record paired with its original
index (`rows.map((r, i) => ({...r, _i: i})).filter(...)`). -/
def computeFilteredView (rows : List Record) (filter : String) :
    List (Nat × Record) :=
  rows.enum.filter (fun p => rowMatches filter p.2)

/-- The removal operations of claim C1. -/
inductive RemoveOp where
  | removeAt (index : Nat)
  | removeLast

/-- Apply one removal operation. -/
def applyRemoveOp (rows : List Record) : RemoveOp → List Record
  | .removeAt i => handleRemoveAt rows i
  | .removeLast => handleRemoveLast rows

/-- Apply a finite sequence of removal operations, first element first. -/
def applyRemoveOps (rows : List Record) : List RemoveOp → List Record
  | [] => rows
  | op :: ops => applyRemoveOps (applyRemoveOp rows op) ops

/-- The JSON values `JSON.stringify` and `JSON.parse` exchange with the
durable slot. Numbers are modelled as integers: the application only ever
stores strings inside arrays of objects, and every number-bearing claim uses
integer slots. -/
inductive JsonValue where
  | jnull
  | jbool (b : Bool)
  | jnum (n : Int)
  | jstr (s : String)
  | jarr (elems : List JsonValue)
  | jobj (fields : List (String × JsonValue))

/-- The character of a decimal digit `d < 10`. -/
def jdigitChar (d : Nat) : Char := Char.ofNat (48 + d)

/-- The most-significant-first decimal digits of `n` (`[0]` for zero). -/
def natChars (n : Nat) : List Nat :=
  if n = 0 then [0] else (Nat.digits 10 n).reverse

/-- Decimal rendering of a natural number. -/
def printNat (n : Nat) : List Char := (natChars n).map jdigitChar

/-- Decimal rendering of an integer, a leading minus for negatives. -/
def printInt (n : Int) : List Char :=
  if n < 0 then '-' :: printNat n.natAbs else printNat n.toNat

/-- The opening-brace character. -/
def lbrace : Char := Char.ofNat 123

/-- The closing-brace character. -/
def rbrace : Char := Char.ofNat 125

/-- Lower-case hexadecimal digit for `d < 16`. -/
def hexDigitChar (d : Nat) : Char :=
  if d < 10 then Char.ofNat (48 + d) else Char.ofNat (87 + d)

/-- How `JSON.stringify` writes one character of a string: quote and
backslash are backslash-escaped, the five short control escapes are used
when they exist, any other control character becomes a `\u00XY` escape, and
every other character stands for itself. -/
def escChar (c : Char) : List Char :=
  if c = '"' then ['\\', '"']
  else if c = '\\' then ['\\', '\\']
  else if c = Char.ofNat 8 then ['\\', 'b']
  else if c = Char.ofNat 9 then ['\\', 't']
  else if c = Char.ofNat 10 then ['\\', 'n']
  else if c = Char.ofNat 12 then ['\\', 'f']
  else if c = Char.ofNat 13 then ['\\', 'r']
  else if c.toNat < 32 then
    let v := c.toNat
    '\\' :: 'u' :: '0' :: '0' :: hexDigitChar (v / 16) :: [hexDigitChar (v % 16)]
  else [c]

/-- `escChar` over a whole string. -/
def escapeChars : List Char → List Char
  | [] => []
  | c :: cs => escChar c ++ escapeChars cs

/-- `JSON.stringify` of a string: quoted and escaped. -/
def printStringChars (s : String) : List Char := '"' :: escapeChars s.toList ++ ['"']

mutual

/-- `JSON.stringify` (compact form, as the browser emits with no spacing
argument): the serialized characters of a value. -/
def printV : JsonValue → List Char
  | .jnull => ['n', 'u', 'l', 'l']
  | .jbool true => ['t', 'r', 'u', 'e']
  | .jbool false => ['f', 'a', 'l', 's', 'e']
  | .jnum n => printInt n
  | .jstr s => printStringChars s
  | .jarr [] => ['[', ']']
  | .jarr (v :: vs) => '[' :: printElems (v :: vs)
  | .jobj [] => [lbrace, rbrace]
  | .jobj (f :: fs) => lbrace :: printMembers (f :: fs)

/-- The elements of a non-empty array, comma-separated, with the closing
bracket. -/
def printElems : List JsonValue → List Char
  | [] => [']']
  | [v] => printV v ++ [']']
  | v :: vs => printV v ++ ',' :: printElems vs

/-- One object member: quoted key, colon, value. -/
def printMember : String × JsonValue → List Char
  | (k, v) => printStringChars k ++ ':' :: printV v

/-- The members of a non-empty object, comma-separated, with the closing
brace. -/
def printMembers : List (String × JsonValue) → List Char
  | [] => [rbrace]
  | [f] => printMember f ++ [rbrace]
  | f :: fs => printMember f ++ ',' :: printMembers fs

end

/-- `JSON.stringify` as a string. -/
def jsonStringify (v : JsonValue) : String := String.mk (printV v)

mutual

/-- Parser fuel sufficient for a value (at most the serialized length). -/
def fuelV : JsonValue → Nat
  | .jnull => 1
  | .jbool _ => 1
  | .jnum _ => 1
  | .jstr s => 2 + s.toList.length
  | .jarr xs => 1 + fuelL xs
  | .jobj fs => 1 + fuelM fs

/-- Parser fuel sufficient for an array's element list. -/
def fuelL : List JsonValue → Nat
  | [] => 0
  | v :: vs => 1 + fuelV v + fuelL vs

/-- Parser fuel sufficient for an object's member list. -/
def fuelM : List (String × JsonValue) → Nat
  | [] => 0
  | (k, v) :: fs => 2 + k.toList.length + fuelV v + fuelM fs

end

/-- JSON whitespace. -/
def jsonWs (c : Char) : Bool :=
  c = ' ' || c = Char.ofNat 9 || c = Char.ofNat 10 || c = Char.ofNat 13

/-- Drop leading JSON whitespace. -/
def skipWs : List Char → List Char
  | [] => []
  | c :: cs => if jsonWs c then skipWs cs else c :: cs

/-- The value of one hexadecimal digit character. -/
def hexVal (c : Char) : Option Nat :=
  if '0' ≤ c ∧ c ≤ '9' then some (c.toNat - 48)
  else if 'a' ≤ c ∧ c ≤ 'f' then some (c.toNat - 87)
  else if 'A' ≤ c ∧ c ≤ 'F' then some (c.toNat - 55)
  else none

/-- Decode the escape that follows a backslash inside a JSON string:
the decoded character and the remaining input. -/
def unescapeStep : List Char → Option (Char × List Char)
  | [] => none
  | e :: cs =>
    if e = '"' then some ('"', cs)
    else if e = '\\' then some ('\\', cs)
    else if e = '/' then some ('/', cs)
    else if e = 'b' then some (Char.ofNat 8, cs)
    else if e = 'f' then some (Char.ofNat 12, cs)
    else if e = 'n' then some (Char.ofNat 10, cs)
    else if e = 'r' then some (Char.ofNat 13, cs)
    else if e = 't' then some (Char.ofNat 9, cs)
    else if e = 'u' then
      match cs with
      | h1 :: h2 :: h3 :: h4 :: cs2 =>
        match hexVal h1, hexVal h2, hexVal h3, hexVal h4 with
        | some a, some b, some c, some d =>
          some (Char.ofNat (((a * 16 + b) * 16 + c) * 16 + d), cs2)
        | _, _, _, _ => none
      | _ => none
    else none

/-- Read the body of a JSON string after the opening quote: the decoded
characters and the input after the closing quote. A raw control character or
a bad escape is refused, as `JSON.parse` refuses them. -/
def parseStringBody : Nat → List Char → Option (List Char × List Char)
  | 0, _ => none
  | _ + 1, [] => none
  | fuel + 1, c :: cs =>
    if c = '"' then some ([], cs)
    else if c = '\\' then
      match unescapeStep cs with
      | some (d, cs2) =>
        match parseStringBody fuel cs2 with
        | some (body, rest) => some (d :: body, rest)
        | none => none
      | none => none
    else if c.toNat < 32 then none
    else
      match parseStringBody fuel cs with
      | some (body, rest) => some (c :: body, rest)
      | none => none

/-- Consume a run of decimal digits, folding them onto `acc`. -/
def parseDigits : List Char → Nat → Nat × List Char
  | [], acc => (acc, [])
  | c :: cs, acc =>
    if c.isDigit then parseDigits cs (acc * 10 + (c.toNat - 48)) else (acc, c :: cs)

mutual

/-- Read one JSON value at the head of the input (leading whitespace already
skipped): the value and the remaining input. -/
def parseValue : Nat → List Char → Option (JsonValue × List Char)
  | 0, _ => none
  | fuel + 1, cs =>
    match cs with
    | [] => none
    | c :: r =>
      if c = 'n' then
        match r with
        | c1 :: c2 :: c3 :: r1 =>
          if c1 = 'u' ∧ c2 = 'l' ∧ c3 = 'l' then some (.jnull, r1) else none
        | _ => none
      else if c = 't' then
        match r with
        | c1 :: c2 :: c3 :: r1 =>
          if c1 = 'r' ∧ c2 = 'u' ∧ c3 = 'e' then some (.jbool true, r1) else none
        | _ => none
      else if c = 'f' then
        match r with
        | c1 :: c2 :: c3 :: c4 :: r1 =>
          if c1 = 'a' ∧ c2 = 'l' ∧ c3 = 's' ∧ c4 = 'e' then
            some (.jbool false, r1)
          else none
        | _ => none
      else if c = '"' then
        match parseStringBody fuel r with
        | some (body, r1) => some (.jstr (String.mk body), r1)
        | none => none
      else if c = '-' then
        match r with
        | d :: _ =>
          if d.isDigit then
            let p := parseDigits r 0
            some (.jnum (-(p.1 : Int)), p.2)
          else none
        | [] => none
      else if c = '[' then
        let r1 := skipWs r
        if r1.head? = some ']' then some (.jarr [], r1.tail)
        else
          match parseElems fuel r1 with
          | some (vs, r2) => some (.jarr vs, r2)
          | none => none
      else if c = lbrace then
        let r1 := skipWs r
        if r1.head? = some rbrace then some (.jobj [], r1.tail)
        else
          match parseMembers fuel r1 with
          | some (fs, r2) => some (.jobj fs, r2)
          | none => none
      else if c.isDigit then
        let p := parseDigits (c :: r) 0
        some (.jnum (p.1 : Int), p.2)
      else none

/-- Read the elements of a non-empty array up to and including the closing
bracket. -/
def parseElems : Nat → List Char → Option (List JsonValue × List Char)
  | 0, _ => none
  | fuel + 1, cs =>
    match parseValue fuel cs with
    | some (v, r1) =>
      match skipWs r1 with
      | [] => none
      | c :: r3 =>
        if c = ',' then
          match parseElems fuel (skipWs r3) with
          | some (vs, r4) => some (v :: vs, r4)
          | none => none
        else if c = ']' then some ([v], r3)
        else none
    | none => none

/-- Read the members of a non-empty object up to and including the closing
brace. -/
def parseMembers : Nat → List Char → Option (List (String × JsonValue) × List Char)
  | 0, _ => none
  | fuel + 1, cs =>
    match cs with
    | [] => none
    | c :: r =>
      if c = '"' then
        match parseStringBody fuel r with
        | some (k, r1) =>
          match skipWs r1 with
          | [] => none
          | c1 :: r3 =>
            if c1 = ':' then
              match parseValue fuel (skipWs r3) with
              | some (v, r4) =>
                match skipWs r4 with
                | [] => none
                | c2 :: r6 =>
                  if c2 = ',' then
                    match parseMembers fuel (skipWs r6) with
                    | some (fs, r7) => some ((String.mk k, v) :: fs, r7)
                    | none => none
                  else if c2 = rbrace then some ([(String.mk k, v)], r6)
                  else none
              | none => none
            else none
        | none => none
      else none

end

/-- `JSON.parse`: skip surrounding whitespace, read one value, and refuse
trailing garbage. `none` models a thrown `SyntaxError`. -/
def jsonParse (s : String) : Option JsonValue :=
  match parseValue (s.toList.length + 1) (skipWs s.toList) with
  | some (v, r) => if skipWs r = [] then some v else none
  | none => none

/-- The browser-local key-value store. `available = false` models a storage
mechanism whose `getItem`/`setItem` throw (disabled storage, quota or
security restrictions); `slots` holds the stored strings. -/
structure Storage where
  available : Bool
  slots : List (String × String)

/-- `localStorage.getItem(key)`: the stored string, or null when absent. -/
def getItem (st : Storage) (key : String) : Option String :=
  st.slots.lookup key

/-- Write a key's slot: replace the binding when present, append otherwise. -/
def setSlot : List (String × String) → String → String → List (String × String)
  | [], k, v => [(k, v)]
  | (k', v') :: rest, k, v =>
    if k' = k then (k, v) :: rest else (k', v') :: setSlot rest k v

/-- The read path of `useLocalStorage` (the lazy `useState` initializer):
`try { const raw = localStorage.getItem(key); return raw ? JSON.parse(raw) :
initial } catch (e) { return initial }`. An unavailable store (throwing
`getItem`), an absent or empty slot, and a slot `JSON.parse` refuses all
degrade to the fallback. -/
def load (st : Storage) (key : String) (fallback : JsonValue) : JsonValue :=
  if st.available then
    match getItem st key with
    | some raw =>
      if raw = "" then fallback
      else
        match jsonParse raw with
        | some v => v
        | none => fallback
    | none => fallback
  else fallback

/-- The write path of `useLocalStorage` (the effect body):
`try { localStorage.setItem(key, JSON.stringify(state)) } catch (e) {}` —
a failed write is swallowed and the store is unchanged. -/
def save (st : Storage) (key : String) (v : JsonValue) : Storage :=
  if st.available then { st with slots := setSlot st.slots key (jsonStringify v) }
  else st

/-- The JSON image of one record, as `JSON.stringify` sees it. -/
def encodeRecord (r : Record) : JsonValue :=
  .jobj [("name", .jstr r.name), ("mobile", .jstr r.mobile)]

/-- The JSON image of the row collection. -/
def encodeRows (rows : List Record) : JsonValue :=
  .jarr (rows.map encodeRecord)

/-- The default collection `[{name:"", mobile:""}]` as a JSON value. -/
def defaultRowsJson : JsonValue := encodeRows [blankRecord]

/-- The five user-driven mutation events the component handles. -/
inductive Event where
  | editField (index : Nat) (field : RecField) (value : String)
  | appendRow
  | insertAfter (index : Int)
  | removeAt (index : Nat)
  | removeLast

/-- One `setRows` updater call: the next collection, and whether the updater
allocated a fresh array. `map`, spread, `filter` and `[...prev]` always
allocate; `handleRemoveLast` returns `prev` itself when the length is at
most one. React compares the returned state to the previous one with
`Object.is` and skips the re-render (hence the `[key, state]` effect) when
they are the same reference, so the freshness bit decides whether the
persistence effect runs. -/
def applyEvent (rows : List Record) : Event → List Record × Bool
  | .editField i f v => (handleChange rows i f v, true)
  | .appendRow => (handleAddRow rows, true)
  | .insertAfter i => (handleInsertAt rows i, true)
  | .removeAt i => (handleRemoveAt rows i, true)
  | .removeLast => (handleRemoveLast rows, decide (rows.length > 1))

/-- The observable steps of one event-loop turn: the in-memory state commit,
and the persistence effect's `setItem(key, JSON.stringify(state))`. -/
inductive RowAction where
  | commit (rows : List Record)
  | save (key : String) (raw : String)

/-- Process one mutation event through the component: run the handler's
updater, and when it produced a fresh array, commit the new state and run
the persistence effect on it; when it returned the previous reference,
React bails out and nothing happens. -/
def processEvent (rows : List Record) (ev : Event) : List Record × List RowAction :=
  let p := applyEvent rows ev
  if p.2 then
    (p.1, [RowAction.commit p.1,
           RowAction.save "rows" (jsonStringify (encodeRows p.1))])
  else (rows, [])

/-- Whether an action is a persistence write. -/
def isSaveAction : RowAction → Bool
  | .save _ _ => true
  | _ => false

/-- The number of persistence writes in a trace. -/
def countSaves (tr : List RowAction) : Nat :=
  (tr.filter isSaveAction).length

/-- JavaScript falsiness of a JSON value (`!rows`). -/
def jsFalsy : JsonValue → Bool
  | .jnull => true
  | .jbool b => !b
  | .jnum n => n = 0
  | .jstr s => s = ""
  | .jarr _ => false
  | .jobj _ => false

/-- The value of a property of a JavaScript object built by `JSON.parse`:
when a key is repeated, the later member wins. -/
def jsProp : List (String × JsonValue) → String → Option JsonValue
  | [], _ => none
  | (k, v) :: rest, key =>
    match jsProp rest key with
    | some w => some w
    | none => if k = key then some v else none

/-- JavaScript `rows.length === 0`: an array's `length` is its element
count, a string's its character count, and an object's its `"length"`
property, compared strictly (only the number 0 passes, no coercion); the
`length` of every other value is `undefined`, and `undefined === 0` is
false. -/
def jsLengthIsZero : JsonValue → Bool
  | .jarr xs => xs.isEmpty
  | .jstr s => s = ""
  | .jobj fs =>
    match jsProp fs "length" with
    | some (.jnum n) => n = 0
    | _ => false
  | _ => false

/-- The observable steps of mounting: state commits and persistence writes,
over raw JSON state (the loaded value need not be an array of records). -/
inductive MountAction where
  | commit (state : JsonValue)
  | save (key : String) (raw : String)

/-- Mounting the component (the `initialize` operation): load the slot with
the default-collection fallback, commit it, and run the effects in
declaration order — the persistence effect writes the loaded state; then the
mount-only effect replaces a falsy or empty collection with the default,
which re-renders and re-runs the persistence effect on the corrected
state. -/
def mountApp (st : Storage) : JsonValue × List MountAction :=
  let loaded := load st "rows" defaultRowsJson
  if jsFalsy loaded || jsLengthIsZero loaded then
    (defaultRowsJson,
     [MountAction.commit loaded,
      MountAction.save "rows" (jsonStringify loaded),
      MountAction.commit defaultRowsJson,
      MountAction.save "rows" (jsonStringify defaultRowsJson)])
  else
    (loaded,
     [MountAction.commit loaded,
      MountAction.save "rows" (jsonStringify loaded)])

/-- Whether a mount action is a persistence write. -/
def isMountSave : MountAction → Bool
  | .save _ _ => true
  | _ => false

/-- The number of persistence writes in a mount trace. -/
def countMountSaves (tr : List MountAction) : Nat :=
  (tr.filter isMountSave).length

/-- A store whose `"rows"` slot holds the valid JSON text `42` — a number,
not an array of records. -/
def storedNumberSlot : Storage :=
  { available := true, slots := [("rows", "42")] }

/-- The remaining input does not begin with a decimal digit, so a number
read just before it stops exactly there. -/
def NoDigitHead (cs : List Char) : Prop :=
  ∀ c, cs.head? = some c → c.isDigit = false

/-! ## Helper lemmas about the row operations -/

theorem handleRemoveAt_ne_nil (rows : List Record) (i : Nat) :
    handleRemoveAt rows i ≠ [] := by
  by_cases h : 0 < (filterIdxNe rows i).length
  · simpa [handleRemoveAt, h] using List.ne_nil_of_length_pos h
  · simp [handleRemoveAt, h]

theorem handleRemoveLast_ne_nil (rows : List Record) (h : rows ≠ []) :
    handleRemoveLast rows ≠ [] := by
  unfold handleRemoveLast
  split
  · next hl => exact List.ne_nil_of_length_pos (by simp [List.length_dropLast]; omega)
  · exact h

theorem mapIdxFrom_length {α : Type} (k : Nat) (f : Nat → α → α) (l : List α) :
    (mapIdxFrom k f l).length = l.length := by
  induction l generalizing k with
  | nil => rfl
  | cons x xs ih => simp [mapIdxFrom, ih]

theorem mapIdxFrom_getElem? {α : Type} (k : Nat) (f : Nat → α → α) (l : List α)
    (j : Nat) : (mapIdxFrom k f l)[j]? = (l[j]?).map (f (k + j)) := by
  induction l generalizing k j with
  | nil => simp [mapIdxFrom]
  | cons x xs ih =>
    cases j with
    | zero => simp [mapIdxFrom]
    | succ j =>
      simp only [mapIdxFrom, List.getElem?_cons_succ, ih (k + 1) j]
      rw [show k + 1 + j = k + (j + 1) from by omega]

theorem rowMatches_iff (q : String) (r : Record) :
    rowMatches q r = true ↔
      q = "" ∨ (jsIncludes r.name.toLower q.toLower
        || jsIncludes r.mobile.toLower q.toLower) = true := by
  unfold rowMatches
  split
  · next h => simp [h]
  · next h => simp [h]

/-! ## The claims about the row operations -/

/-- Claim C1: Non-empty invariant: from any non-empty collection, every finite
sequence of `removeAt`/`removeLast` operations leaves a collection of length
at least one (`handleRemoveAt` substitutes the single-blank-record fallback
when removal would empty the collection, and `handleRemoveLast` is a no-op
on a one-element collection). -/
theorem nonEmptyInvariant (ops : List RemoveOp) (rows : List Record)
    (h : rows ≠ []) : 1 ≤ (applyRemoveOps rows ops).length := by
  induction ops generalizing rows with
  | nil =>
    have := List.length_pos.mpr h
    simpa [applyRemoveOps] using this
  | cons op ops ih =>
    rw [applyRemoveOps]
    apply ih
    cases op with
    | removeAt i => exact handleRemoveAt_ne_nil rows i
    | removeLast => exact handleRemoveLast_ne_nil rows h

/-- Claim C1, witness: the invariant at a concrete non-empty collection and
operation sequence. -/
theorem nonEmptyInvariant_witness :
    1 ≤ (applyRemoveOps [blankRecord]
          [RemoveOp.removeAt 0, RemoveOp.removeLast]).length :=
  nonEmptyInvariant [RemoveOp.removeAt 0, RemoveOp.removeLast] [blankRecord]
    (by decide)

/-- Claim C2: Filtered-view correctness: `computeFilteredView rows q` contains a
pair `(i, r)` exactly when `rows[i] = r` and `r` case-insensitively
contains the query in its name or mobile (every record when the query is
empty); the view is a sublist of the enumerated collection (original
order); and the empty query yields all pairs, the original index equal to
the position. -/
theorem computeFilteredView_spec (rows : List Record) (q : String) :
    (∀ i r, (i, r) ∈ computeFilteredView rows q ↔
      rows[i]? = some r ∧ (q = "" ∨ (jsIncludes r.name.toLower q.toLower
        || jsIncludes r.mobile.toLower q.toLower) = true))
    ∧ (computeFilteredView rows q).Sublist rows.enum
    ∧ (q = "" → computeFilteredView rows q = rows.enum
        ∧ ∀ j : Nat, (computeFilteredView rows q)[j]? = rows[j]?.map fun r => (j, r)) := by
  refine ⟨fun i r => ?_, List.filter_sublist _, fun hq => ?_⟩
  · rw [computeFilteredView, List.mem_filter, List.mem_enum_iff_getElem?,
      rowMatches_iff]
  · have hall : computeFilteredView rows q = rows.enum := by
      rw [computeFilteredView]
      apply List.filter_eq_self.mpr
      intro p _
      simp [rowMatches, hq]
    exact ⟨hall, fun j => by rw [hall, List.getElem?_enum]⟩

/-- Claim C9: `removeLast` behaviour: on a collection of more than one record it
drops exactly the final record, keeping the first `N - 1` unchanged; on a
one-element collection it is a no-op. -/
theorem handleRemoveLast_spec (rows : List Record) :
    (rows.length > 1 →
       handleRemoveLast rows = rows.dropLast
       ∧ (handleRemoveLast rows).length = rows.length - 1
       ∧ ∀ j, j < rows.length - 1 → (handleRemoveLast rows)[j]? = rows[j]?)
    ∧ (rows.length = 1 → handleRemoveLast rows = rows) := by
  constructor
  · intro h
    have he : handleRemoveLast rows = rows.dropLast := by
      simp [handleRemoveLast, h]
    refine ⟨he, by simp [he], fun j hj => ?_⟩
    rw [he, List.dropLast_eq_take, List.getElem?_take_of_lt hj]
  · intro h
    simp [handleRemoveLast, h]

/-- Claim C3: Insert position correctness: for `-1 ≤ i < N`, `insertAfter(i)`
yields length `N + 1`, the blank record at position `i + 1`, positions
`≤ i` unchanged, and every record formerly at a position `> i` at its old
position plus one. -/
theorem handleInsertAt_spec (rows : List Record) (i : Int) (h1 : -1 ≤ i)
    (h2 : i < (rows.length : Int)) :
    (handleInsertAt rows i).length = rows.length + 1
    ∧ (handleInsertAt rows i)[(i + 1).toNat]? = some blankRecord
    ∧ (∀ j : Nat, (j : Int) ≤ i → (handleInsertAt rows i)[j]? = rows[j]?)
    ∧ (∀ j : Nat, i < (j : Int) →
        (handleInsertAt rows i)[j + 1]? = rows[j]?) := by
  have hs : spliceStart rows.length (i + 1) = (i + 1).toNat := by
    unfold spliceStart
    rw [if_neg (by omega)]
    apply min_eq_left
    omega
  set s := (i + 1).toNat with hsdef
  have hsle : s ≤ rows.length := by omega
  have he : handleInsertAt rows i = rows.take s ++ blankRecord :: rows.drop s := by
    rw [handleInsertAt, hs]
  have htl : (rows.take s).length = s := by
    simp [List.length_take]; omega
  refine ⟨?_, ?_, fun j hj => ?_, fun j hj => ?_⟩
  · rw [he]; simp [htl, List.length_drop]; omega
  · rw [he, List.getElem?_append_right (by omega : (rows.take s).length ≤ s), htl]
    simp
  · have hjs : j < s := by omega
    rw [he, List.getElem?_append_left (by omega : j < (rows.take s).length),
      List.getElem?_take_of_lt hjs]
  · have hjs : s ≤ j := by omega
    rw [he, List.getElem?_append_right (by omega : (rows.take s).length ≤ j + 1), htl,
      show j + 1 - s = (j - s) + 1 from by omega]
    simp only [List.getElem?_cons_succ, List.getElem?_drop]
    rw [show s + (j - s) = j from by omega]

/-- Claim C3, witness: inserting after position 0 of a two-record collection. -/
theorem handleInsertAt_spec_witness :
    (handleInsertAt [blankRecord, blankRecord] 0).length = 3
    ∧ (handleInsertAt [blankRecord, blankRecord] 0)[(0 + 1 : Int).toNat]? =
        some blankRecord
    ∧ (∀ j : Nat, (j : Int) ≤ 0 →
        (handleInsertAt [blankRecord, blankRecord] 0)[j]? =
          [blankRecord, blankRecord][j]?)
    ∧ (∀ j : Nat, (0 : Int) < (j : Int) →
        (handleInsertAt [blankRecord, blankRecord] 0)[j + 1]? =
          [blankRecord, blankRecord][j]?) :=
  handleInsertAt_spec [blankRecord, blankRecord] 0 (by decide) (by decide)

/-- Claim C10: Out-of-range insert clamping: for `i ≥ N`, `insertAfter(i)` appends
the blank record at the end — splice clamps the position to the length —
leaving the first `N` records unchanged. -/
theorem handleInsertAt_clamp (rows : List Record) (i : Int)
    (h : (rows.length : Int) ≤ i) :
    handleInsertAt rows i = rows ++ [blankRecord]
    ∧ (handleInsertAt rows i).length = rows.length + 1
    ∧ (∀ j : Nat, j < rows.length → (handleInsertAt rows i)[j]? = rows[j]?)
    ∧ (handleInsertAt rows i)[rows.length]? = some blankRecord := by
  have hs : spliceStart rows.length (i + 1) = rows.length := by
    unfold spliceStart
    rw [if_neg (by omega)]
    apply min_eq_right
    omega
  have he : handleInsertAt rows i = rows ++ [blankRecord] := by
    rw [handleInsertAt, hs, List.take_length, List.drop_length]
  refine ⟨he, by simp [he], fun j hj => ?_, ?_⟩
  · rw [he, List.getElem?_append_left hj]
  · rw [he, List.getElem?_append_right (le_refl _)]
    simp

/-- Claim C10, witness: inserting at index 5 of a one-record collection appends. -/
theorem handleInsertAt_clamp_witness :
    handleInsertAt [blankRecord] 5 = [blankRecord] ++ [blankRecord]
    ∧ (handleInsertAt [blankRecord] 5).length = 2
    ∧ (∀ j : Nat, j < 1 → (handleInsertAt [blankRecord] 5)[j]? = [blankRecord][j]?)
    ∧ (handleInsertAt [blankRecord] 5)[1]? = some blankRecord :=
  handleInsertAt_clamp [blankRecord] 5 (by decide)

/-- Claim C7: `editField` postcondition and frame: with `index` in range, the new
collection has the same length, the record at `index` has the field set to
the value, and every other position is unchanged. -/
theorem handleChange_spec (rows : List Record) (index : Nat) (field : RecField)
    (value : String) (r : Record) (h : rows[index]? = some r) :
    (handleChange rows index field value).length = rows.length
    ∧ (handleChange rows index field value)[index]? =
        some (setField r field value)
    ∧ ∀ j : Nat, j ≠ index → (handleChange rows index field value)[j]? = rows[j]? := by
  refine ⟨mapIdxFrom_length 0 _ rows, ?_, fun j hj => ?_⟩
  · rw [handleChange, mapIdxFrom_getElem?, h]
    simp
  · rw [handleChange, mapIdxFrom_getElem?]
    cases hr : rows[j]? with
    | none => rfl
    | some x => simp [hj]

/-- Claim C7, witness: editing the name of the only record. -/
theorem handleChange_spec_witness :
    (handleChange [blankRecord] 0 RecField.name "Alice").length = 1
    ∧ (handleChange [blankRecord] 0 RecField.name "Alice")[0]? =
        some (setField blankRecord RecField.name "Alice")
    ∧ ∀ j : Nat, j ≠ 0 →
        (handleChange [blankRecord] 0 RecField.name "Alice")[j]? =
          [blankRecord][j]? :=
  handleChange_spec [blankRecord] 0 RecField.name "Alice" blankRecord (by decide)

/-- Claim C5: Load graceful degradation: `load` returns the fallback when the
storage mechanism throws, when the slot is absent, and when the stored
string does not deserialize as JSON — in particular for the literal string
`\x7bnot json` — and, being a total function into values, never raises. -/
theorem load_degradation (st : Storage) (key : String) (fb : JsonValue) :
    (st.available = false → load st key fb = fb)
    ∧ (getItem st key = none → load st key fb = fb)
    ∧ (∀ raw, getItem st key = some raw → jsonParse raw = none →
        load st key fb = fb)
    ∧ jsonParse "\x7bnot json" = none
    ∧ (∀ raw, getItem st key = some raw → raw = "\x7bnot json" →
        load st key fb = fb) := by
  have hnj : jsonParse "\x7bnot json" = none := rfl
  refine ⟨fun h => by simp [load, h], fun h => ?_, fun raw h1 h2 => ?_, hnj,
    fun raw h1 h2 => ?_⟩
  · by_cases ha : st.available <;> simp [load, ha, h]
  · by_cases ha : st.available <;> simp [load, ha, h1, h2]
  · subst h2
    by_cases ha : st.available <;> simp [load, ha, h1, hnj]

/-- Claim C5, witness: the degradation conjuncts at a concrete store holding the
corrupt literal. -/
theorem load_degradation_witness :
    load { available := true, slots := [("k", "\x7bnot json")] } "k"
      JsonValue.jnull = JsonValue.jnull :=
  (load_degradation { available := true, slots := [("k", "\x7bnot json")] }
    "k" JsonValue.jnull).2.2.2.2 "\x7bnot json" rfl rfl

/-- Claim C6 (the divergence): The code keeps valid JSON of the wrong shape: a slot holding the
number `42` loads as the number itself, not the fallback collection, and
the mount-time emptiness check does not replace it either. -/
theorem load_wrongShape_kept :
    load storedNumberSlot "rows" defaultRowsJson = JsonValue.jnum 42
    ∧ (mountApp storedNumberSlot).1 = JsonValue.jnum 42
    ∧ load storedNumberSlot "rows" defaultRowsJson ≠ defaultRowsJson := by
  refine ⟨rfl, rfl, ?_⟩
  intro h
  rw [show load storedNumberSlot "rows" defaultRowsJson = JsonValue.jnum 42
    from rfl] at h
  simp [defaultRowsJson, encodeRows] at h

/-- Claim C4, counterexample: `removeLast` on a one-element collection returns the
previous state reference, so React bails out and the operation triggers no
`save` at all — not exactly one. -/
theorem saveOnMutation_cex :
    countSaves (processEvent [blankRecord] Event.removeLast).2 ≠ 1 := by
  decide

/-- Claim C4 as amended: every mutation whose updater allocates a fresh
collection commits the new snapshot and then triggers exactly one save
carrying that snapshot, in that order; the one updater that returns the
previous reference — `removeLast` on a collection of length at most one —
leaves the state unchanged and triggers no save. Mounting (`initialize`)
commits the loaded value and then saves it once when that value is neither
falsy nor of length zero; when it is falsy or of length zero, the mount-only
effect replaces it with the default blank collection and the persistence
effect runs a second time, so initialize performs two saves, the first
carrying the uncorrected loaded snapshot and the second the corrected
default. -/
theorem saveOnMutation_amended (rows : List Record) (ev : Event) (st : Storage) :
    ((applyEvent rows ev).2 = true →
       (processEvent rows ev).1 = (applyEvent rows ev).1
       ∧ (processEvent rows ev).2 =
           [RowAction.commit (applyEvent rows ev).1,
            RowAction.save "rows" (jsonStringify (encodeRows (applyEvent rows ev).1))]
       ∧ countSaves (processEvent rows ev).2 = 1)
    ∧ ((applyEvent rows ev).2 = false →
       ev = Event.removeLast ∧ rows.length ≤ 1
       ∧ (processEvent rows ev).1 = rows ∧ (processEvent rows ev).2 = [])
    ∧ ((jsFalsy (load st "rows" defaultRowsJson)
          || jsLengthIsZero (load st "rows" defaultRowsJson)) = false →
       (mountApp st).1 = load st "rows" defaultRowsJson
       ∧ (mountApp st).2 =
           [MountAction.commit (load st "rows" defaultRowsJson),
            MountAction.save "rows" (jsonStringify (load st "rows" defaultRowsJson))]
       ∧ countMountSaves (mountApp st).2 = 1)
    ∧ ((jsFalsy (load st "rows" defaultRowsJson)
          || jsLengthIsZero (load st "rows" defaultRowsJson)) = true →
       (mountApp st).1 = defaultRowsJson
       ∧ (mountApp st).2 =
           [MountAction.commit (load st "rows" defaultRowsJson),
            MountAction.save "rows" (jsonStringify (load st "rows" defaultRowsJson)),
            MountAction.commit defaultRowsJson,
            MountAction.save "rows" (jsonStringify defaultRowsJson)]
       ∧ countMountSaves (mountApp st).2 = 2) := by
  refine ⟨fun h => ?_, fun h => ?_, fun h => ?_, fun h => ?_⟩
  · simp [processEvent, h, countSaves, isSaveAction]
  · have hev : ev = Event.removeLast := by
      cases ev <;> simp_all [applyEvent]
    subst hev
    have hlen : rows.length ≤ 1 := by
      simp [applyEvent] at h
      omega
    exact ⟨rfl, hlen, by simp [processEvent, h], by simp [processEvent, h]⟩
  · rw [Bool.or_eq_false_iff] at h
    simp [mountApp, h.1, h.2, countMountSaves, isMountSave]
  · simp [mountApp, h, countMountSaves, isMountSave]

/-! ## Decimal digits round-trip -/

theorem jdigitChar_facts : ∀ b : Nat, b < 10 →
    (jdigitChar b).isDigit = true ∧ (jdigitChar b).toNat - 48 = b
    ∧ jsonWs (jdigitChar b) = false
    ∧ jdigitChar b ≠ 'n' ∧ jdigitChar b ≠ 't' ∧ jdigitChar b ≠ 'f'
    ∧ jdigitChar b ≠ '"' ∧ jdigitChar b ≠ '-' ∧ jdigitChar b ≠ '['
    ∧ jdigitChar b ≠ lbrace ∧ jdigitChar b ≠ ']' ∧ jdigitChar b ≠ rbrace := by
  decide

theorem parseDigits_map (bs : List Nat) (rest : List Char) (acc : Nat)
    (hb : ∀ b ∈ bs, b < 10) (hr : NoDigitHead rest) :
    parseDigits (bs.map jdigitChar ++ rest) acc =
      (bs.foldl (fun a b => a * 10 + b) acc, rest) := by
  induction bs generalizing acc with
  | nil =>
    cases hrest : rest with
    | nil => rfl
    | cons c cs =>
      have : c.isDigit = false := hr c (by rw [hrest]; rfl)
      simp [parseDigits, this]
  | cons b bs ih =>
    have hb0 := (jdigitChar_facts b (hb b (by simp))).1
    have hv := (jdigitChar_facts b (hb b (by simp))).2.1
    simp only [List.map_cons, List.cons_append, parseDigits, hb0, if_true, hv]
    rw [List.append_eq, ih _ (fun x hx => hb x (List.mem_cons_of_mem b hx))]
    simp [List.foldl]

theorem foldl_eq_ofDigits (bs : List Nat) (acc : Nat) :
    bs.foldl (fun a b => a * 10 + b) acc =
      acc * 10 ^ bs.length + Nat.ofDigits 10 bs.reverse := by
  induction bs generalizing acc with
  | nil => simp
  | cons b bs ih =>
    rw [List.foldl_cons, ih, List.reverse_cons, Nat.ofDigits_append]
    simp [Nat.ofDigits_singleton]
    ring

theorem natChars_lt (n : Nat) : ∀ b ∈ natChars n, b < 10 := by
  intro b hb
  unfold natChars at hb
  split at hb
  · simp at hb; omega
  · exact Nat.digits_lt_base (by norm_num) (List.mem_reverse.mp hb)

theorem natChars_ne_nil (n : Nat) : natChars n ≠ [] := by
  unfold natChars
  split
  · simp
  · next h =>
    simp only [ne_eq, List.reverse_eq_nil_iff]
    exact Nat.digits_ne_nil_iff_ne_zero.mpr h

theorem natChars_foldl (n : Nat) :
    (natChars n).foldl (fun a b => a * 10 + b) 0 = n := by
  rw [foldl_eq_ofDigits]
  unfold natChars
  split
  · next h => simp [h, Nat.ofDigits]
  · simp [List.reverse_reverse, Nat.ofDigits_digits]

theorem parseDigits_printNat (n : Nat) (rest : List Char) (hr : NoDigitHead rest) :
    parseDigits (printNat n ++ rest) 0 = (n, rest) := by
  rw [printNat, parseDigits_map (natChars n) rest 0 (natChars_lt n) hr,
    natChars_foldl]

theorem parseValue_printNat_head (f : Nat) (m : Nat) (rest : List Char)
    (hr : NoDigitHead rest) :
    parseValue (f + 1) (printNat m ++ rest) = some (.jnum (m : Int), rest) := by
  obtain ⟨b, bs, hcons⟩ := List.exists_cons_of_ne_nil (natChars_ne_nil m)
  have hblt : b < 10 := natChars_lt m b (by rw [hcons]; simp)
  have hfacts := jdigitChar_facts b hblt
  have hshape : printNat m ++ rest = jdigitChar b :: (List.map jdigitChar bs ++ rest) := by
    rw [printNat, hcons]
    simp
  rw [hshape]
  simp only [parseValue]
  rw [if_neg hfacts.2.2.2.1, if_neg hfacts.2.2.2.2.1, if_neg hfacts.2.2.2.2.2.1,
    if_neg hfacts.2.2.2.2.2.2.1, if_neg hfacts.2.2.2.2.2.2.2.1,
    if_neg hfacts.2.2.2.2.2.2.2.2.1, if_neg hfacts.2.2.2.2.2.2.2.2.2.1,
    if_pos hfacts.1]
  have : parseDigits (jdigitChar b :: (List.map jdigitChar bs ++ rest)) 0 = (m, rest) := by
    rw [show jdigitChar b :: (List.map jdigitChar bs ++ rest) = printNat m ++ rest from
      by rw [hshape]]
    exact parseDigits_printNat m rest hr
  simp [this]

theorem parseValue_printInt (f : Nat) (n : Int) (rest : List Char)
    (hr : NoDigitHead rest) :
    parseValue (f + 1) (printInt n ++ rest) = some (.jnum n, rest) := by
  by_cases hn : n < 0
  · rw [printInt, if_pos hn, List.cons_append]
    obtain ⟨b, bs, hcons⟩ := List.exists_cons_of_ne_nil (natChars_ne_nil n.natAbs)
    have hblt : b < 10 := natChars_lt n.natAbs b (by rw [hcons]; simp)
    have hfacts := jdigitChar_facts b hblt
    have hshape : printNat n.natAbs ++ rest =
        jdigitChar b :: (List.map jdigitChar bs ++ rest) := by
      rw [printNat, hcons]
      simp
    rw [hshape]
    simp only [parseValue]
    rw [if_neg (by decide : ¬('-' : Char) = 'n'), if_neg (by decide : ¬('-' : Char) = 't'),
      if_neg (by decide : ¬('-' : Char) = 'f'), if_neg (by decide : ¬('-' : Char) = '"'),
      if_pos trivial]
    have hpd : parseDigits (jdigitChar b :: (List.map jdigitChar bs ++ rest)) 0 =
        (n.natAbs, rest) := by
      rw [show jdigitChar b :: (List.map jdigitChar bs ++ rest) = printNat n.natAbs ++ rest
        from by rw [hshape]]
      exact parseDigits_printNat n.natAbs rest hr
    simp only [hfacts.1, if_true, hpd]
    rw [show (-(n.natAbs : Int)) = n from by omega]
  · rw [printInt, if_neg hn]
    rw [parseValue_printNat_head f n.toNat rest hr]
    rw [Int.toNat_of_nonneg (by omega)]

/-! ## String round-trip -/

theorem hexVal_hexDigitChar : ∀ d : Nat, d < 16 → hexVal (hexDigitChar d) = some d := by
  decide

theorem parseStringBody_escape (cs : List Char) : ∀ fuel rest, cs.length < fuel →
    parseStringBody fuel (escapeChars cs ++ '"' :: rest) = some (cs, rest) := by
  induction cs with
  | nil =>
    intro fuel rest h
    cases fuel with
    | zero => omega
    | succ f => simp [escapeChars, parseStringBody]
  | cons c cs ih =>
    intro fuel rest h
    cases fuel with
    | zero => omega
    | succ f =>
      have hlen : cs.length < f := by simp at h; omega
      have hrec := ih f rest hlen
      rw [escapeChars, List.append_assoc]
      by_cases h1 : c = '"'
      · subst h1; simp [escChar, parseStringBody, unescapeStep, hrec]
      · by_cases h2 : c = '\\'
        · subst h2; simp [escChar, parseStringBody, unescapeStep, hrec]
        · by_cases h3 : c = Char.ofNat 8
          · subst h3; simp [escChar, parseStringBody, unescapeStep, hrec]
          · by_cases h4 : c = Char.ofNat 9
            · subst h4; simp [escChar, parseStringBody, unescapeStep, hrec]
            · by_cases h5 : c = Char.ofNat 10
              · subst h5; simp [escChar, parseStringBody, unescapeStep, hrec]
              · by_cases h6 : c = Char.ofNat 12
                · subst h6; simp [escChar, parseStringBody, unescapeStep, hrec]
                · by_cases h7 : c = Char.ofNat 13
                  · subst h7; simp [escChar, parseStringBody, unescapeStep, hrec]
                  · by_cases h8 : c.toNat < 32
                    · have hq : hexVal (hexDigitChar (c.toNat / 16)) = some (c.toNat / 16) :=
                        hexVal_hexDigitChar _ (by omega)
                      have hr' : hexVal (hexDigitChar (c.toNat % 16)) = some (c.toNat % 16) :=
                        hexVal_hexDigitChar _ (by omega)
                      simp only [escChar, if_neg h1, if_neg h2, if_neg h3, if_neg h4,
                        if_neg h5, if_neg h6, if_neg h7, if_pos h8]
                      simp [parseStringBody, unescapeStep, hq, hr', hrec,
                        show hexVal '0' = some 0 from by decide]
                      rw [show c.toNat / 16 * 16 + c.toNat % 16 = c.toNat from by omega,
                        Char.ofNat_toNat]
                    · simp only [escChar, if_neg h1, if_neg h2, if_neg h3, if_neg h4,
                        if_neg h5, if_neg h6, if_neg h7, if_neg h8]
                      simp [parseStringBody, h1, h2, h8, hrec]

/-! ## Head characters and length bounds -/

theorem skipWs_not_ws (c : Char) (t : List Char) (h : jsonWs c = false) :
    skipWs (c :: t) = c :: t := by
  simp [skipWs, h]

theorem printNat_ne_nil (n : Nat) : printNat n ≠ [] := by
  rw [printNat]
  simpa using natChars_ne_nil n

theorem printV_head (v : JsonValue) :
    ∃ c t, printV v = c :: t ∧ jsonWs c = false ∧ c ≠ ']' ∧ c ≠ rbrace := by
  cases v with
  | jnull => exact ⟨'n', ['u', 'l', 'l'], by simp [printV], by decide, by decide, by decide⟩
  | jbool b =>
    cases b with
    | true => exact ⟨'t', ['r', 'u', 'e'], by simp [printV], by decide, by decide, by decide⟩
    | false =>
      exact ⟨'f', ['a', 'l', 's', 'e'], by simp [printV], by decide, by decide, by decide⟩
  | jnum n =>
    by_cases hn : n < 0
    · exact ⟨'-', printNat n.natAbs, by simp [printV, printInt, hn], by decide, by decide,
        by decide⟩
    · obtain ⟨b, bs, hcons⟩ := List.exists_cons_of_ne_nil (natChars_ne_nil n.toNat)
      have hb : b < 10 := natChars_lt n.toNat b (by rw [hcons]; simp)
      have hf := jdigitChar_facts b hb
      refine ⟨jdigitChar b, List.map jdigitChar bs, ?_, hf.2.2.1, hf.2.2.2.2.2.2.2.2.2.2.1,
        hf.2.2.2.2.2.2.2.2.2.2.2⟩
      simp [printV, printInt, hn, printNat, hcons]
  | jstr s =>
    exact ⟨'"', escapeChars s.toList ++ ['"'], by simp [printV, printStringChars],
      by decide, by decide, by decide⟩
  | jarr xs =>
    cases xs with
    | nil => exact ⟨'[', [']'], by simp [printV], by decide, by decide, by decide⟩
    | cons v vs =>
      exact ⟨'[', printElems (v :: vs), by simp [printV], by decide, by decide, by decide⟩
  | jobj fs =>
    cases fs with
    | nil => exact ⟨lbrace, [rbrace], by simp [printV], by decide, by decide, by decide⟩
    | cons f fs =>
      exact ⟨lbrace, printMembers (f :: fs), by simp [printV], by decide, by decide, by decide⟩

theorem skipWs_printV_append (v : JsonValue) (rest : List Char) :
    skipWs (printV v ++ rest) = printV v ++ rest := by
  obtain ⟨c, t, he, hws, _, _⟩ := printV_head v
  rw [he, List.cons_append, skipWs_not_ws c _ hws]

theorem escChar_length_pos (c : Char) : 1 ≤ (escChar c).length := by
  unfold escChar
  repeat' split
  all_goals simp

theorem escapeChars_length (cs : List Char) :
    cs.length ≤ (escapeChars cs).length := by
  induction cs with
  | nil => simp [escapeChars]
  | cons c cs ih =>
    have := escChar_length_pos c
    simp only [escapeChars, List.length_append, List.length_cons]
    omega

theorem fuelV_pos (v : JsonValue) : 1 ≤ fuelV v := by
  cases v <;> simp only [fuelV] <;> omega

theorem printInt_length_pos (n : Int) : 1 ≤ (printInt n).length := by
  unfold printInt
  split
  · simp
  · have := printNat_ne_nil n.toNat
    exact List.length_pos.mpr this

mutual

theorem fuelV_le_printV (v : JsonValue) : fuelV v ≤ (printV v).length := by
  cases v with
  | jnull => simp [fuelV, printV]
  | jbool b => cases b <;> simp [fuelV, printV]
  | jnum n => simpa [fuelV] using printInt_length_pos n
  | jstr s =>
    have := escapeChars_length s.toList
    simp only [fuelV, printV, printStringChars, List.length_cons, List.length_append,
      List.length_singleton]
    omega
  | jarr xs =>
    cases xs with
    | nil => simp [fuelV, fuelL, printV]
    | cons v vs =>
      have := fuelL_le_printElems (v :: vs)
      simp only [fuelV, printV, List.length_cons]
      omega
  | jobj fs =>
    cases fs with
    | nil => simp [fuelV, fuelM, printV]
    | cons f fs =>
      have := fuelM_le_printMembers (f :: fs)
      simp only [fuelV, printV, List.length_cons]
      omega

theorem fuelL_le_printElems (xs : List JsonValue) :
    fuelL xs ≤ (printElems xs).length := by
  cases xs with
  | nil => simp [fuelL, printElems]
  | cons v vs =>
    cases vs with
    | nil =>
      have := fuelV_le_printV v
      simp only [fuelL, fuelL.eq_1, printElems, List.length_append, List.length_singleton]
      omega
    | cons v2 vs2 =>
      have h1 := fuelV_le_printV v
      have h2 := fuelL_le_printElems (v2 :: vs2)
      have e1 : fuelL (v :: v2 :: vs2) = 1 + fuelV v + fuelL (v2 :: vs2) := by
        simp only [fuelL]
      have e2 : printElems (v :: v2 :: vs2) = printV v ++ ',' :: printElems (v2 :: vs2) := by
        simp only [printElems]
      rw [e1, e2]
      simp only [List.length_append, List.length_cons]
      omega

theorem fuelM_le_printMembers (fs : List (String × JsonValue)) :
    fuelM fs ≤ (printMembers fs).length := by
  cases fs with
  | nil => simp [fuelM, printMembers]
  | cons f fs2 =>
    obtain ⟨k, w⟩ := f
    have hk := escapeChars_length k.toList
    have hw := fuelV_le_printV w
    cases fs2 with
    | nil =>
      simp only [fuelM, fuelM.eq_1, printMembers, printMember, printStringChars,
        List.length_append, List.length_cons, List.length_singleton]
      omega
    | cons f2 fs3 =>
      have h2 := fuelM_le_printMembers (f2 :: fs3)
      have e1 : fuelM ((k, w) :: f2 :: fs3) = 2 + k.toList.length + fuelV w + fuelM (f2 :: fs3) := by
        simp only [fuelM]
      have e2 : printMembers ((k, w) :: f2 :: fs3) =
          printMember (k, w) ++ ',' :: printMembers (f2 :: fs3) := by
        simp only [printMembers]
      rw [e1, e2]
      simp only [printMember, printStringChars, List.length_append, List.length_cons]
      omega

end

/-! ## Parsing what the printer wrote -/

theorem noDigitHead_cons (c : Char) (t : List Char) (h : c.isDigit = false) :
    NoDigitHead (c :: t) := by
  intro c' hc'
  simp only [List.head?] at hc'
  cases hc'
  exact h

theorem noDigitHead_nil : NoDigitHead [] := by
  intro c hc
  simp at hc

theorem stringMk_toList (s : String) : String.mk s.toList = s := rfl

theorem stringMk_data (s : String) : String.mk s.data = s := rfl

theorem printElems_cons_head (v : JsonValue) (vs : List JsonValue) :
    ∃ c t, printElems (v :: vs) = c :: t ∧ jsonWs c = false ∧ c ≠ ']' ∧
      c ≠ rbrace := by
  obtain ⟨c, t, he, h1, h2, h3⟩ := printV_head v
  cases vs with
  | nil => exact ⟨c, t ++ [']'], by simp [printElems, he], h1, h2, h3⟩
  | cons v2 vs2 =>
    exact ⟨c, t ++ ',' :: printElems (v2 :: vs2), by simp [printElems, he], h1, h2, h3⟩

theorem printMembers_cons_head (f : String × JsonValue)
    (fs : List (String × JsonValue)) :
    ∃ t, printMembers (f :: fs) = '"' :: t := by
  obtain ⟨k, w⟩ := f
  cases fs with
  | nil =>
    exact ⟨(escapeChars k.toList ++ ['"']) ++ ':' :: printV w ++ [rbrace],
      by simp [printMembers, printMember, printStringChars]⟩
  | cons f2 fs3 =>
    exact ⟨(escapeChars k.toList ++ ['"']) ++ ':' :: printV w ++
      ',' :: printMembers (f2 :: fs3),
      by simp [printMembers, printMember, printStringChars]⟩

mutual

theorem parseValue_printV : ∀ (v : JsonValue) (fuel : Nat) (rest : List Char),
    fuelV v ≤ fuel → NoDigitHead rest →
    parseValue fuel (printV v ++ rest) = some (v, rest)
  | v, 0, rest, hf, _ => absurd hf (by have := fuelV_pos v; omega)
  | .jnull, f + 1, rest, hf, hr => by simp [printV, parseValue]
  | .jbool b, f + 1, rest, hf, hr => by cases b <;> simp [printV, parseValue]
  | .jnum n, f + 1, rest, hf, hr => by
    simp only [printV]
    exact parseValue_printInt f n rest hr
  | .jstr s, f + 1, rest, hf, hr => by
    have hlen : s.toList.length < f := by
      simp only [fuelV] at hf
      omega
    have hparse := parseStringBody_escape s.toList f rest hlen
    simp only [String.toList] at hparse
    simp only [printV, printStringChars, List.cons_append, List.append_assoc,
      List.singleton_append]
    simp [parseValue, hparse, stringMk_data]
  | .jarr [], f + 1, rest, hf, hr => by simp [printV, parseValue, skipWs, jsonWs]
  | .jarr (v :: vs), f + 1, rest, hf, hr => by
    obtain ⟨c0, t0, he0, hws0, hne0, _⟩ := printElems_cons_head v vs
    have hskip : skipWs (printElems (v :: vs) ++ rest) =
        printElems (v :: vs) ++ rest := by
      rw [he0, List.cons_append, skipWs_not_ws c0 _ hws0]
    have hhead : (printElems (v :: vs) ++ rest).head? = some c0 := by
      rw [he0]
      rfl
    have hfl : fuelL (v :: vs) ≤ f := by
      simp only [fuelV] at hf
      omega
    have helems := parseElems_printElems (v :: vs) f rest (by simp) hfl
    simp only [printV, List.cons_append]
    simp [parseValue, hskip, hhead, hne0, helems]
  | .jobj [], f + 1, rest, hf, hr => by
    simp [printV, parseValue, skipWs, jsonWs, lbrace, rbrace]
  | .jobj (f0 :: fs2), f + 1, rest, hf, hr => by
    obtain ⟨t0, he0⟩ := printMembers_cons_head f0 fs2
    have hskip : skipWs (printMembers (f0 :: fs2) ++ rest) =
        printMembers (f0 :: fs2) ++ rest := by
      rw [he0, List.cons_append, skipWs_not_ws '"' _ (by decide)]
    have hhead : (printMembers (f0 :: fs2) ++ rest).head? = some '"' := by
      rw [he0]
      rfl
    have hfm : fuelM (f0 :: fs2) ≤ f := by
      simp only [fuelV] at hf
      omega
    have hmems := parseMembers_printMembers (f0 :: fs2) f rest (by simp) hfm
    simp only [printV, List.cons_append]
    simp [parseValue, hskip, hhead, hmems, lbrace, rbrace]
termination_by v _ _ _ _ => sizeOf v

theorem parseElems_printElems : ∀ (xs : List JsonValue) (fuel : Nat)
    (rest : List Char), xs ≠ [] → fuelL xs ≤ fuel →
    parseElems fuel (printElems xs ++ rest) = some (xs, rest)
  | [], _, _, hne, _ => absurd rfl hne
  | v :: vs, 0, rest, hne, hf =>
    absurd hf (by simp only [fuelL]; have := fuelV_pos v; omega)
  | [v], g + 1, rest, hne, hf => by
    have hfv : fuelV v ≤ g := by
      simp only [fuelL] at hf
      omega
    have hv := parseValue_printV v g (']' :: rest) hfv
      (noDigitHead_cons ']' rest (by decide))
    simp only [printElems, List.append_assoc, List.singleton_append]
    simp [parseElems, hv, skipWs_not_ws ']' rest (by decide)]
  | v :: v2 :: vs2, g + 1, rest, hne, hf => by
    have e : fuelL (v :: v2 :: vs2) = 1 + fuelV v + fuelL (v2 :: vs2) := by
      simp only [fuelL]
    rw [e] at hf
    have hfv : fuelV v ≤ g := by omega
    have hfl2 : fuelL (v2 :: vs2) ≤ g := by omega
    have hv := parseValue_printV v g
      (',' :: (printElems (v2 :: vs2) ++ rest)) hfv
      (noDigitHead_cons ',' _ (by decide))
    obtain ⟨c0, t0, he0, hws0, _, _⟩ := printElems_cons_head v2 vs2
    have hskip : skipWs (printElems (v2 :: vs2) ++ rest) =
        printElems (v2 :: vs2) ++ rest := by
      rw [he0, List.cons_append, skipWs_not_ws c0 _ hws0]
    have hrec := parseElems_printElems (v2 :: vs2) g rest (by simp) hfl2
    have hshape : printElems (v :: v2 :: vs2) ++ rest =
        printV v ++ (',' :: (printElems (v2 :: vs2) ++ rest)) := by
      simp [printElems]
    rw [hshape]
    simp [parseElems, hv, skipWs_not_ws ',' _ (by decide), hskip, hrec]
termination_by xs _ _ _ _ => sizeOf xs

theorem parseMembers_printMembers : ∀ (fs : List (String × JsonValue))
    (fuel : Nat) (rest : List Char), fs ≠ [] → fuelM fs ≤ fuel →
    parseMembers fuel (printMembers fs ++ rest) = some (fs, rest)
  | [], _, _, hne, _ => absurd rfl hne
  | (k, w) :: fs2, 0, rest, hne, hf => absurd hf (by simp only [fuelM]; omega)
  | [(k, w)], g + 1, rest, hne, hf => by
    have hfk : k.toList.length < g := by
      simp only [fuelM] at hf
      have := fuelV_pos w
      omega
    have hfw : fuelV w ≤ g := by
      simp only [fuelM] at hf
      omega
    have hkey := parseStringBody_escape k.toList g
      (':' :: (printV w ++ rbrace :: rest)) hfk
    have hw := parseValue_printV w g (rbrace :: rest) hfw
      (noDigitHead_cons rbrace rest (by decide))
    have hshape : printMembers [(k, w)] ++ rest =
        '"' :: (escapeChars k.toList ++
          ('"' :: (':' :: (printV w ++ rbrace :: rest)))) := by
      simp [printMembers, printMember, printStringChars]
    rw [hshape]
    simp only [String.toList] at hkey
    simp [parseMembers, hkey, skipWs_not_ws ':' _ (by decide),
      skipWs_printV_append, hw, skipWs_not_ws rbrace _ (by decide),
      stringMk_data, show rbrace ≠ ',' from by decide]
  | (k, w) :: f2 :: fs3, g + 1, rest, hne, hf => by
    have e : fuelM ((k, w) :: f2 :: fs3) =
        2 + k.toList.length + fuelV w + fuelM (f2 :: fs3) := by
      simp only [fuelM]
    rw [e] at hf
    have hfk : k.toList.length < g := by omega
    have hfw : fuelV w ≤ g := by omega
    have hfm2 : fuelM (f2 :: fs3) ≤ g := by omega
    have hkey := parseStringBody_escape k.toList g
      (':' :: (printV w ++ ',' :: (printMembers (f2 :: fs3) ++ rest))) hfk
    have hw := parseValue_printV w g
      (',' :: (printMembers (f2 :: fs3) ++ rest)) hfw
      (noDigitHead_cons ',' _ (by decide))
    obtain ⟨t0, he0⟩ := printMembers_cons_head f2 fs3
    have hskip : skipWs (printMembers (f2 :: fs3) ++ rest) =
        printMembers (f2 :: fs3) ++ rest := by
      rw [he0, List.cons_append, skipWs_not_ws '"' _ (by decide)]
    have hrec := parseMembers_printMembers (f2 :: fs3) g rest (by simp) hfm2
    have hshape : printMembers ((k, w) :: f2 :: fs3) ++ rest =
        '"' :: (escapeChars k.toList ++
          ('"' :: (':' :: (printV w ++
            ',' :: (printMembers (f2 :: fs3) ++ rest))))) := by
      simp [printMembers, printMember, printStringChars]
    rw [hshape]
    simp only [String.toList] at hkey
    simp [parseMembers, hkey, skipWs_not_ws ':' _ (by decide),
      skipWs_printV_append, hw, skipWs_not_ws ',' _ (by decide), hskip,
      hrec, stringMk_data]
termination_by fs _ _ _ _ => sizeOf fs

end

theorem jsonParse_stringify (v : JsonValue) : jsonParse (jsonStringify v) = some v := by
  unfold jsonParse jsonStringify
  rw [show (String.mk (printV v)).toList = printV v from rfl]
  have h1 : skipWs (printV v) = printV v := by
    simpa using skipWs_printV_append v []
  rw [h1]
  have hfuel : fuelV v ≤ (printV v).length + 1 :=
    le_trans (fuelV_le_printV v) (by omega)
  have h2 := parseValue_printV v ((printV v).length + 1) [] hfuel noDigitHead_nil
  rw [show printV v ++ ([] : List Char) = printV v from by simp] at h2
  rw [h2]
  simp [skipWs]

theorem lookup_setSlot (slots : List (String × String)) (k val : String) :
    (setSlot slots k val).lookup k = some val := by
  induction slots with
  | nil => simp [setSlot, List.lookup]
  | cons p rest ih =>
    obtain ⟨k', v'⟩ := p
    by_cases h : k' = k
    · subst h
      simp [setSlot, List.lookup]
    · have hne : (k == k') = false := by
        simp
        exact fun hh => h hh.symm
      simp [setSlot, h, List.lookup, hne, ih]

/-- Claim C8: Round-trip persistence: with storage available, `save key v`
followed by `load key fb` returns `v` itself, whatever the fallback. -/
theorem save_load_roundtrip (st : Storage) (key : String) (v fb : JsonValue)
    (h : st.available = true) : load (save st key v) key fb = v := by
  have hav : (save st key v).available = true := by
    simp [save, h]
  have hget : getItem (save st key v) key = some (jsonStringify v) := by
    simp [save, h, getItem, lookup_setSlot]
  have hne : jsonStringify v ≠ "" := by
    obtain ⟨c, t, he, _, _, _⟩ := printV_head v
    rw [jsonStringify, he]
    intro hcon
    exact absurd (congrArg String.toList hcon) (by simp)
  simp [load, hav, hget, hne, jsonParse_stringify]

/-- Claim C8, witness: a concrete round trip through an available empty store. -/
theorem save_load_roundtrip_witness :
    load (save { available := true, slots := [] } "rows" defaultRowsJson) "rows"
      JsonValue.jnull = defaultRowsJson :=
  save_load_roundtrip { available := true, slots := [] } "rows" defaultRowsJson
    JsonValue.jnull rfl
